import Mathlib

/-!
Verification of the `crud` refresh pipeline of `pizza-studio/genshin_dictionary`
(`src/crud/src/update_data.rs`) against its natural-language specification.

The embedding models the `dictionary_items` table as a list of rows, the
reconciliation SQL of `delete_duplicated_items` as a pure function on that list,
the bulk writer `insert_items` as explicit state passing over the table, and the
orchestrator `update_dictionary` as a function of failure/fetch oracles that also
emits the trace of phases it performed.
-/

namespace GenshinDict

/-- Modelled from the spec: the `Language` enum lives in the `model` crate, which is
not part of the sources here.  The spec describes it as a closed enumeration whose
variants are totally ordered by definition order (which is also the order of the
stored Postgres enum used by `ORDER BY language`).  We represent a language by its
definition index; `chs` is a fixed representative used in the concrete scenarios. -/
abbrev Language := Nat

/-- The first language of the enumeration (`Language::Chs` in the tests). -/
def Language.chs : Language := 0

/-- One row of the `dictionary_items` table: columns `vocabulary_id` (`i64`),
`language` (enum), `vocabulary_translation` (`text`). -/
structure Row where
  vocabulary_id : Int
  language : Language
  vocabulary_translation : String
deriving DecidableEq, Repr

/-- The `dictionary_items` table, as the list of its rows. -/
abbrev Table := List Row

/-- Insert a row into a list that is already sorted by `language`, before the first
row of strictly larger language; among rows of equal language the earlier row stays
first, one admissible realisation of SQL's unspecified tie order in
`STRING_AGG(... ORDER BY language)`. -/
def insertByLang (r : Row) : List Row → List Row
  | [] => [r]
  | x :: xs => if r.language ≤ x.language then r :: x :: xs else x :: insertByLang r xs

/-- Stable sort of rows by `language`, realising `ORDER BY language`. -/
def sortByLang : List Row → List Row
  | [] => []
  | r :: rs => insertByLang r (sortByLang rs)

/-- The rows of the table carrying a given `vocabulary_id` (one `GROUP BY
vocabulary_id` group). -/
def rowsOf (t : Table) (id : Int) : List Row :=
  t.filter (fun r => decide (r.vocabulary_id = id))

/-- The distinct `vocabulary_id`s present in the table. -/
def tableIds (t : Table) : List Int :=
  (t.map (·.vocabulary_id)).dedup

/-- `STRING_AGG(vocabulary_translation, ', ' ORDER BY language)` for one
`vocabulary_id` group: the group's translations joined with `", "` in ascending
language order.  Note that the language itself is only the sort key; it is not part
of the aggregated string. -/
def signature (t : Table) (id : Int) : String :=
  String.intercalate ", " ((sortByLang (rowsOf t id)).map (·.vocabulary_translation))

/-- The distinct signatures present in the table (the outer `GROUP BY translations`). -/
def signatures (t : Table) : List String :=
  ((tableIds t).map (signature t)).dedup

/-- The SQL `MIN` aggregate over a list of ids (`none` on an empty group). -/
def listMinInt : List Int → Option Int
  | [] => none
  | a :: l =>
    some (match listMinInt l with
      | none => a
      | some m => min a m)

/-- `MIN(vocabulary_id)` over the ids whose signature is `s`. -/
def minIdOfSig (t : Table) (s : String) : Option Int :=
  listMinInt ((tableIds t).filter (fun id => decide (signature t id = s)))

/-- The ids kept by reconciliation: one minimal id per signature group
(`SELECT MIN(vocabulary_id) ... GROUP BY translations`). -/
def keptIds (t : Table) : List Int :=
  (signatures t).filterMap (minIdOfSig t)

/-- `delete_duplicated_items`: delete every row whose `vocabulary_id` is not among
the kept ids; the subquery is evaluated against the pre-delete table snapshot. -/
def delete_duplicated_items (t : Table) : Table :=
  t.filter (fun r => decide (r.vocabulary_id ∈ keptIds t))

/-- The `(language, translation)` pairs a `vocabulary_id` carries in the table;
the claims speak about these "per-language translation sets". -/
def translationPairs (t : Table) (id : Int) : List (Language × String) :=
  (rowsOf t id).map (fun r => (r.language, r.vocabulary_translation))

/-- The row built by one `INSERT INTO "dictionary_items"` statement of
`insert_items`. -/
def mkRow (lang : Language) (p : Int × String) : Row :=
  ⟨p.1, lang, p.2⟩

/-- Fuel-indexed chunker; the fuel, an upper bound on the number of chunks,
makes the recursion structural so that concrete terms reduce. -/
def chunksOfFuel (n : Nat) : Nat → List α → List (List α)
  | _, [] => []
  | 0, _ :: _ => []
  | fuel + 1, x :: xs => (x :: xs.take (n - 1)) :: chunksOfFuel n fuel (xs.drop (n - 1))

/-- `itertools` `chunks(n)`: partition a list into consecutive groups of `n`,
the last possibly smaller. -/
def chunksOf (n : Nat) (l : List α) : List (List α) :=
  chunksOfFuel n l.length l

/-- Run a sequence of inserts for one language; each record either lands as a
row appended to the table or fails with the database error `insertFail` assigns
to it.  Used for one batch: `try_join_all` dispatches the batch's inserts
concurrently and resolves to the first error; we model the schedule in which
the records before the first failing insert land and no later one does. -/
def runRecords (lang : Language) (insertFail : Language → Int → String → Option Nat) :
    List (Int × String) → Table → Option Nat × Table
  | [], t => (none, t)
  | p :: rest, t =>
    match insertFail lang p.1 p.2 with
    | some e => (some e, t)
    | none => runRecords lang insertFail rest (t ++ [mkRow lang p])

/-- The batch loop of `insert_items`: batches run strictly one after another and
the loop stops at the first failing batch (`try_join_all(chunk).await?`). -/
def runBatches (lang : Language) (insertFail : Language → Int → String → Option Nat) :
    List (List (Int × String)) → Table → Option Nat × Table
  | [], t => (none, t)
  | b :: bs, t =>
    match runRecords lang insertFail b t with
    | (some e, t2) => (some e, t2)
    | (none, t2) => runBatches lang insertFail bs t2

/-- `insert_items`: chunk the snapshot into batches of 50, run them sequentially,
and on success return `Ok(len)` where `len` is the snapshot's record count. -/
def insert_items (lang : Language) (map : List (Int × String))
    (insertFail : Language → Int → String → Option Nat) (t : Table) :
    Except Nat Nat × Table :=
  match runBatches lang insertFail (chunksOf 50 map) t with
  | (some e, t2) => (.error e, t2)
  | (none, t2) => (.ok map.length, t2)

/-- Equality of `Except` values is decidable when it is on both sides. -/
instance exceptDecidableEq {ε α : Type _} [DecidableEq ε] [DecidableEq α] :
    DecidableEq (Except ε α)
  | Except.error a, Except.error b =>
    if h : a = b then isTrue (by rw [h])
    else isFalse (fun hc => h (by cases hc; rfl))
  | Except.error _, Except.ok _ => isFalse (fun hc => Except.noConfusion hc)
  | Except.ok _, Except.error _ => isFalse (fun hc => Except.noConfusion hc)
  | Except.ok a, Except.ok b =>
    if h : a = b then isTrue (by rw [h])
    else isFalse (fun hc => h (by cases hc; rfl))

/-- Modelled from the spec: `CrudError` lives in the crate's `error.rs`, which is
not part of the sources here.  The call sites in `update_data.rs` construct it
from the underlying cause alone: `CrudError::UpdateData(e.into())` for a failed
fetch or JSON decode, and the blanket `From<sqlx::Error>` conversion applied by
`?` for database failures (truncate, insert, reconcile).  Causes are opaque and
represented by a numeric code. -/
inductive CrudError where
  | updateData (cause : Nat)
  | db (cause : Nat)
deriving DecidableEq, Repr

/-- The phases of one refresh, used to record the trace of `update_dictionary`. -/
inductive Phase where
  | reset
  | fetch (lang : Language)
  | write (lang : Language)
  | reconcile
deriving DecidableEq, Repr

/-- The external effects `update_dictionary` depends on: whether `TRUNCATE`
fails, each language's fetched snapshot (or fetch/decode failure), which single
inserts fail, and whether the reconciliation `DELETE` fails. -/
structure Oracles where
  truncateErr : Option Nat
  fetchResult : Language → Except Nat (List (Int × String))
  insertFail : Language → Int → String → Option Nat
  dedupErr : Option Nat

/-- The per-language loop of `update_dictionary`: fetch the language's snapshot
(`reqwest::get(url) ... .json()`), then write it with `insert_items`; the first
failure aborts the loop.  Returns the result, the table, and the trace of
phases performed. -/
def processLangs (o : Oracles) :
    List Language → Table → Except CrudError Unit × Table × List Phase
  | [], t => (.ok (), t, [])
  | l :: ls, t =>
    match o.fetchResult l with
    | .error e => (.error (.updateData e), t, [Phase.fetch l])
    | .ok map =>
      match insert_items l map o.insertFail t with
      | (.error e, t2) => (.error (.db e), t2, [Phase.fetch l, Phase.write l])
      | (.ok _, t2) =>
        let r := processLangs o ls t2
        (r.1, r.2.1, Phase.fetch l :: Phase.write l :: r.2.2)

/-- `update_dictionary`: truncate the table, process every language of
`LANGUAGE_URL_MAPPING` — a `std::collections::HashMap`, whose iteration order is
an unspecified permutation of the catalog, passed here as `iterOrder` — and
finally `delete_duplicated_items`.  Returns the result, the final table, and
the trace of phases performed. -/
def update_dictionary (o : Oracles) (iterOrder : List Language) (t : Table) :
    Except CrudError Unit × Table × List Phase :=
  match o.truncateErr with
  | some e => (.error (.db e), t, [Phase.reset])
  | none =>
    let r := processLangs o iterOrder []
    match r.1 with
    | .error e => (.error e, r.2.1, Phase.reset :: r.2.2)
    | .ok _ =>
      match o.dedupErr with
      | some e => (.error (.db e), r.2.1, Phase.reset :: r.2.2 ++ [Phase.reconcile])
      | none =>
        (.ok (), delete_duplicated_items r.2.1, Phase.reset :: r.2.2 ++ [Phase.reconcile])

/-- The source catalog in its definition order.  Modelled from the spec: the
closed `Language` enumeration is iterated in definition order by
`Language::iter()` when `LANGUAGE_URL_MAPPING` is built; with languages
represented by their definition index, the catalog of an `n`-language
enumeration is `[0, 1, ..., n-1]`. -/
def catalog (n : Nat) : List Language :=
  List.range n

/-- The languages a trace visited, in order (one `fetch` phase per language). -/
def visitedLanguages (tr : List Phase) : List Language :=
  tr.filterMap (fun p =>
    match p with
    | Phase.fetch l => some l
    | _ => none)

/-- Projection of a row to its `(language, translation)` pair. -/
def rowPair (r : Row) : Language × String :=
  (r.language, r.vocabulary_translation)

/-- `insertByLang` transported to `(language, translation)` pairs. -/
def insertPairByLang (p : Language × String) :
    List (Language × String) → List (Language × String)
  | [] => [p]
  | q :: qs => if p.1 ≤ q.1 then p :: q :: qs else q :: insertPairByLang p qs

/-- `sortByLang` transported to `(language, translation)` pairs. -/
def sortPairsByLang : List (Language × String) → List (Language × String)
  | [] => []
  | p :: ps => insertPairByLang p (sortPairsByLang ps)

lemma mem_rowsOf {t : Table} {id : Int} {r : Row} :
    r ∈ rowsOf t id ↔ r ∈ t ∧ r.vocabulary_id = id := by
  simp [rowsOf]

lemma mem_tableIds {t : Table} {id : Int} :
    id ∈ tableIds t ↔ ∃ r ∈ t, r.vocabulary_id = id := by
  simp [tableIds]

lemma listMinInt_eq_none {l : List Int} : listMinInt l = none ↔ l = [] := by
  cases l <;> simp [listMinInt]

lemma listMinInt_mem_le {l : List Int} {m : Int} (h : listMinInt l = some m) :
    m ∈ l ∧ ∀ x ∈ l, m ≤ x := by
  induction l generalizing m with
  | nil => simp [listMinInt] at h
  | cons a l ih =>
    rw [listMinInt] at h
    cases hl : listMinInt l with
    | none =>
      have : l = [] := listMinInt_eq_none.mp hl
      subst this
      simp [listMinInt] at h
      simp [h]
    | some m' =>
      rw [hl] at h
      simp only [Option.some.injEq] at h
      obtain ⟨hmem, hlb⟩ := ih hl
      constructor
      · rcases le_total a m' with hle | hle
        · rw [← h, min_eq_left hle]
          exact List.mem_cons_self a l
        · rw [← h, min_eq_right hle]
          exact List.mem_cons_of_mem a hmem
      · intro x hx
        rcases List.mem_cons.mp hx with hx | hx
        · rw [← h, hx]; exact min_le_left a m'
        · rw [← h]; exact le_trans (min_le_right a m') (hlb x hx)

lemma mem_keptIds {t : Table} {id : Int} :
    id ∈ keptIds t ↔
      id ∈ tableIds t ∧
        ∀ j ∈ tableIds t, signature t j = signature t id → id ≤ j := by
  constructor
  · intro h
    obtain ⟨s, _hs, hmin⟩ := List.mem_filterMap.mp h
    obtain ⟨hmem, hlb⟩ := listMinInt_mem_le hmin
    obtain ⟨hid, hsig⟩ := List.mem_filter.mp hmem
    have hsig' : signature t id = s := by simpa using hsig
    refine ⟨hid, fun j hj hsj => ?_⟩
    exact hlb j (List.mem_filter.mpr ⟨hj, by simp [hsj, hsig']⟩)
  · rintro ⟨hid, hmin⟩
    apply List.mem_filterMap.mpr
    refine ⟨signature t id, ?_, ?_⟩
    · simp only [signatures, List.mem_dedup, List.mem_map]
      exact ⟨id, hid, rfl⟩
    · unfold minIdOfSig
      have hidL : id ∈ (tableIds t).filter
          (fun j => decide (signature t j = signature t id)) :=
        List.mem_filter.mpr ⟨hid, by simp⟩
      cases hL : listMinInt ((tableIds t).filter
          (fun j => decide (signature t j = signature t id))) with
      | none =>
        rw [listMinInt_eq_none] at hL
        rw [hL] at hidL
        simp at hidL
      | some m =>
        obtain ⟨hmL, hlb⟩ := listMinInt_mem_le hL
        obtain ⟨hmIds, hmSig⟩ := List.mem_filter.mp hmL
        have h1 : id ≤ m := hmin m hmIds (by simpa using hmSig)
        have h2 : m ≤ id := hlb id hidL
        congr 1
        omega

lemma rowsOf_filter (p : Row → Bool) (t : Table) (id : Int) :
    rowsOf (t.filter p) id = (rowsOf t id).filter p := by
  induction t with
  | nil => rfl
  | cons r rs ih =>
    by_cases h1 : p r <;> by_cases h2 : r.vocabulary_id = id <;>
      simp [rowsOf, List.filter_cons, h1, h2] at ih ⊢ <;>
      simpa [rowsOf] using ih

lemma rowsOf_dedup_of_kept {t : Table} {id : Int} (h : id ∈ keptIds t) :
    rowsOf (delete_duplicated_items t) id = rowsOf t id := by
  rw [delete_duplicated_items, rowsOf_filter]
  apply List.filter_eq_self.mpr
  intro r hr
  have hrid := (mem_rowsOf.mp hr).2
  simp [hrid, h]

lemma rowsOf_dedup_of_not_kept {t : Table} {id : Int} (h : id ∉ keptIds t) :
    rowsOf (delete_duplicated_items t) id = [] := by
  rw [delete_duplicated_items, rowsOf_filter]
  rw [List.filter_eq_nil_iff]
  intro r hr
  have hrid := (mem_rowsOf.mp hr).2
  simp [hrid, h]

lemma map_rowPair_insertByLang (r : Row) (l : List Row) :
    (insertByLang r l).map rowPair = insertPairByLang (rowPair r) (l.map rowPair) := by
  induction l with
  | nil => rfl
  | cons x xs ih =>
    by_cases h : r.language ≤ x.language <;>
      simp [insertByLang, insertPairByLang, rowPair, h, ih]

lemma map_rowPair_sortByLang (l : List Row) :
    (sortByLang l).map rowPair = sortPairsByLang (l.map rowPair) := by
  induction l with
  | nil => rfl
  | cons x xs ih => simp [sortByLang, sortPairsByLang, map_rowPair_insertByLang, ih]

/-- The signature of an id is determined by its `(language, translation)` pairs:
sort them by language and join the translations. -/
lemma signature_eq_pairs (t : Table) (id : Int) :
    signature t id
      = String.intercalate ", "
          ((sortPairsByLang (translationPairs t id)).map Prod.snd) := by
  unfold signature translationPairs
  have h1 : (sortByLang (rowsOf t id)).map (·.vocabulary_translation)
      = ((sortByLang (rowsOf t id)).map rowPair).map Prod.snd := by
    simp [rowPair]
  have h2 : (rowsOf t id).map (fun r => (r.language, r.vocabulary_translation))
      = (rowsOf t id).map rowPair := rfl
  rw [h1, map_rowPair_sortByLang, h2]

lemma mem_insertPairByLang {p q : Language × String} {l : List (Language × String)} :
    q ∈ insertPairByLang p l ↔ q = p ∨ q ∈ l := by
  induction l with
  | nil => simp [insertPairByLang]
  | cons x xs ih =>
    by_cases h : p.1 ≤ x.1
    · simp [insertPairByLang, h, ih]
    · simp [insertPairByLang, h, ih]
      tauto

lemma insertPairByLang_perm (p : Language × String) (l : List (Language × String)) :
    List.Perm (insertPairByLang p l) (p :: l) := by
  induction l with
  | nil => rfl
  | cons x xs ih =>
    by_cases h : p.1 ≤ x.1
    · simp [insertPairByLang, h]
    · simp only [insertPairByLang, if_neg h]
      exact (ih.cons x).trans (List.Perm.swap p x xs)

lemma sortPairsByLang_perm (l : List (Language × String)) :
    List.Perm (sortPairsByLang l) l := by
  induction l with
  | nil => rfl
  | cons x xs ih => exact (insertPairByLang_perm x (sortPairsByLang xs)).trans (ih.cons x)

lemma insertPairByLang_pairwise {p : Language × String} {l : List (Language × String)}
    (hl : l.Pairwise (fun a b => a.1 ≤ b.1)) :
    (insertPairByLang p l).Pairwise (fun a b => a.1 ≤ b.1) := by
  induction l with
  | nil => simp [insertPairByLang]
  | cons x xs ih =>
    rcases List.pairwise_cons.mp hl with ⟨hx, hxs⟩
    by_cases h : p.1 ≤ x.1
    · simp only [insertPairByLang, if_pos h]
      refine List.pairwise_cons.mpr ⟨?_, hl⟩
      intro q hq
      rcases List.mem_cons.mp hq with rfl | hq
      · exact h
      · exact le_trans h (hx q hq)
    · simp only [insertPairByLang, if_neg h]
      refine List.pairwise_cons.mpr ⟨?_, ih hxs⟩
      intro q hq
      rcases mem_insertPairByLang.mp hq with rfl | hq
      · exact le_of_not_le h
      · exact hx q hq

lemma sortPairsByLang_pairwise (l : List (Language × String)) :
    (sortPairsByLang l).Pairwise (fun a b => a.1 ≤ b.1) := by
  induction l with
  | nil => simp [sortPairsByLang]
  | cons x xs ih => exact insertPairByLang_pairwise ih

/-- Two lists of `(language, translation)` pairs that are permutations of each
other, both weakly sorted by language, with no repeated language in the first,
are equal. -/
lemma eq_of_perm_sorted_nodupKeys :
    ∀ {l₁ l₂ : List (Language × String)}, List.Perm l₁ l₂ →
      l₁.Pairwise (fun a b => a.1 ≤ b.1) → l₂.Pairwise (fun a b => a.1 ≤ b.1) →
      (l₁.map Prod.fst).Nodup → l₁ = l₂ := by
  intro l₁
  induction l₁ with
  | nil =>
    intro l₂ hp _ _ _
    exact (hp.nil_eq).symm ▸ rfl
  | cons a t₁ ih =>
    intro l₂ hp hs₁ hs₂ hnd
    cases l₂ with
    | nil => exact absurd hp.symm.nil_eq (by simp)
    | cons b t₂ =>
      have hab : a = b := by
        by_contra hne
        have hb : b ∈ a :: t₁ := hp.symm.subset (List.mem_cons_self b t₂)
        have ha : a ∈ b :: t₂ := hp.subset (List.mem_cons_self a t₁)
        have hbt : b ∈ t₁ := by
          rcases List.mem_cons.mp hb with h | h
          · exact absurd h.symm hne
          · exact h
        have hat : a ∈ t₂ := by
          rcases List.mem_cons.mp ha with h | h
          · exact absurd h hne
          · exact h
        have h1 : a.1 ≤ b.1 := (List.pairwise_cons.mp hs₁).1 b hbt
        have h2 : b.1 ≤ a.1 := (List.pairwise_cons.mp hs₂).1 a hat
        have hkey : a.1 = b.1 := le_antisymm h1 h2
        have : a.1 ∉ t₁.map Prod.fst := (List.nodup_cons.mp (by simpa using hnd)).1
        exact this (hkey ▸ List.mem_map_of_mem Prod.fst hbt)
      subst hab
      have ht : List.Perm t₁ t₂ := hp.cons_inv
      have := ih ht (List.pairwise_cons.mp hs₁).2 (List.pairwise_cons.mp hs₂).2
        (by simpa using (List.nodup_cons.mp (by simpa using hnd)).2)
      rw [this]

/-- Sorting by language is invariant under permutation when no language repeats. -/
lemma sortPairsByLang_eq_of_perm {l₁ l₂ : List (Language × String)}
    (hp : List.Perm l₁ l₂) (hnd : (l₁.map Prod.fst).Nodup) :
    sortPairsByLang l₁ = sortPairsByLang l₂ := by
  apply eq_of_perm_sorted_nodupKeys
  · exact (sortPairsByLang_perm l₁).trans (hp.trans (sortPairsByLang_perm l₂).symm)
  · exact sortPairsByLang_pairwise l₁
  · exact sortPairsByLang_pairwise l₂
  · exact (((sortPairsByLang_perm l₁).map Prod.fst).nodup_iff).mpr hnd

end GenshinDict

namespace GenshinDict

lemma mem_signatures {t : Table} {s : String} :
    s ∈ signatures t ↔ ∃ id ∈ tableIds t, signature t id = s := by
  simp [signatures]

lemma mem_tableIds_dedup {t : Table} {id : Int} :
    id ∈ tableIds (delete_duplicated_items t) ↔
      id ∈ tableIds t ∧ id ∈ keptIds t := by
  rw [mem_tableIds, mem_tableIds]
  constructor
  · rintro ⟨r, hr, hrid⟩
    obtain ⟨hrt, hrk⟩ := List.mem_filter.mp hr
    exact ⟨⟨r, hrt, hrid⟩, by simpa [hrid] using hrk⟩
  · rintro ⟨⟨r, hrt, hrid⟩, hk⟩
    exact ⟨r, List.mem_filter.mpr ⟨hrt, by simp [hrid, hk]⟩, hrid⟩

lemma signature_dedup {t : Table} {id : Int} (h : id ∈ keptIds t) :
    signature (delete_duplicated_items t) id = signature t id := by
  unfold signature
  rw [rowsOf_dedup_of_kept h]

/-- Every id present in the table has a kept representative of its signature
group: the group's minimum. -/
lemma exists_kept_of_mem {t : Table} {id : Int} (h : id ∈ tableIds t) :
    ∃ m, m ∈ keptIds t ∧ m ∈ tableIds t ∧ signature t m = signature t id := by
  have hidL : id ∈ (tableIds t).filter
      (fun j => decide (signature t j = signature t id)) :=
    List.mem_filter.mpr ⟨h, by simp⟩
  cases hL : listMinInt ((tableIds t).filter
      (fun j => decide (signature t j = signature t id))) with
  | none =>
    rw [listMinInt_eq_none] at hL
    rw [hL] at hidL
    simp at hidL
  | some m =>
    obtain ⟨hmL, hlb⟩ := listMinInt_mem_le hL
    obtain ⟨hmIds, hmSig⟩ := List.mem_filter.mp hmL
    have hmsig : signature t m = signature t id := by simpa using hmSig
    refine ⟨m, ?_, hmIds, hmsig⟩
    apply mem_keptIds.mpr
    refine ⟨hmIds, fun j hj hsj => ?_⟩
    exact hlb j (List.mem_filter.mpr ⟨hj, by simp [hsj, hmsig]⟩)

/-- Claim C10: reconciliation is all-or-nothing per `vocabulary_id` (survival
depends only on the id, never on an individual row), the set of distinct
signatures present in the table is unchanged, and a non-empty table stays
non-empty. -/
theorem C10_atomicity (t : Table) :
    (∀ id : Int, rowsOf (delete_duplicated_items t) id = rowsOf t id ∨
      rowsOf (delete_duplicated_items t) id = []) ∧
    (∀ s : String, s ∈ signatures (delete_duplicated_items t) ↔ s ∈ signatures t) ∧
    (t ≠ [] → delete_duplicated_items t ≠ []) := by
  refine ⟨?_, ?_, ?_⟩
  · intro id
    by_cases h : id ∈ keptIds t
    · exact Or.inl (rowsOf_dedup_of_kept h)
    · exact Or.inr (rowsOf_dedup_of_not_kept h)
  · intro s
    constructor
    · intro hs
      obtain ⟨id, hid, hsig⟩ := mem_signatures.mp hs
      obtain ⟨hidt, hidk⟩ := mem_tableIds_dedup.mp hid
      exact mem_signatures.mpr ⟨id, hidt, by rwa [signature_dedup hidk] at hsig⟩
    · intro hs
      obtain ⟨id, hid, hsig⟩ := mem_signatures.mp hs
      obtain ⟨m, hmk, hmt, hmsig⟩ := exists_kept_of_mem hid
      refine mem_signatures.mpr ⟨m, mem_tableIds_dedup.mpr ⟨hmt, hmk⟩, ?_⟩
      rw [signature_dedup hmk, hmsig, hsig]
  · intro hne
    obtain ⟨r, hr⟩ := List.exists_mem_of_ne_nil t hne
    have hid : r.vocabulary_id ∈ tableIds t := mem_tableIds.mpr ⟨r, hr, rfl⟩
    obtain ⟨m, hmk, hmt, _⟩ := exists_kept_of_mem hid
    have : m ∈ tableIds (delete_duplicated_items t) :=
      mem_tableIds_dedup.mpr ⟨hmt, hmk⟩
    obtain ⟨r', hr', _⟩ := mem_tableIds.mp this
    exact List.ne_nil_of_mem hr'

/-- Witness for `C10_atomicity`: a singleton table stays non-empty. -/
theorem C10_atomicity_witness :
    delete_duplicated_items [⟨1, 0, "u"⟩] ≠ [] :=
  (C10_atomicity [⟨1, 0, "u"⟩]).2.2 (by decide)

lemma runRecords_ok {lang : Language} {f : Language → Int → String → Option Nat}
    {l : List (Int × String)} (h : ∀ p ∈ l, f lang p.1 p.2 = none) :
    ∀ t : Table, runRecords lang f l t = (none, t ++ l.map (mkRow lang)) := by
  induction l with
  | nil => intro t; simp [runRecords]
  | cons p rest ih =>
    intro t
    have hp : f lang p.1 p.2 = none := h p (List.mem_cons_self p rest)
    simp only [runRecords, hp]
    rw [ih (fun q hq => h q (List.mem_cons_of_mem p hq))]
    simp

lemma runRecords_fail {lang : Language} {f : Language → Int → String → Option Nat}
    {pre : List (Int × String)} {p0 : Int × String} {post : List (Int × String)}
    {e : Nat} (hpre : ∀ p ∈ pre, f lang p.1 p.2 = none)
    (hfail : f lang p0.1 p0.2 = some e) :
    ∀ t : Table,
      runRecords lang f (pre ++ p0 :: post) t = (some e, t ++ pre.map (mkRow lang)) := by
  induction pre with
  | nil => intro t; simp [runRecords, hfail]
  | cons q qs ih =>
    intro t
    have hq : f lang q.1 q.2 = none := hpre q (List.mem_cons_self q qs)
    simp only [List.cons_append, runRecords, hq, List.append_eq]
    rw [ih (fun r hr => hpre r (List.mem_cons_of_mem q hr))]
    simp

lemma runRecords_none_append {lang : Language} {f : Language → Int → String → Option Nat}
    {l₁ l₂ : List (Int × String)} {t t' : Table}
    (h : runRecords lang f l₁ t = (none, t')) :
    runRecords lang f (l₁ ++ l₂) t = runRecords lang f l₂ t' := by
  induction l₁ generalizing t with
  | nil =>
    simp only [runRecords, Prod.mk.injEq] at h
    rw [List.nil_append, h.2]
  | cons p rest ih =>
    cases hf : f lang p.1 p.2 with
    | some e =>
      simp [runRecords, hf] at h
    | none =>
      simp only [runRecords, hf] at h
      simp only [List.cons_append, runRecords, hf]
      exact ih h

lemma runRecords_some_append {lang : Language} {f : Language → Int → String → Option Nat}
    {l₁ l₂ : List (Int × String)} {t t' : Table} {e : Nat}
    (h : runRecords lang f l₁ t = (some e, t')) :
    runRecords lang f (l₁ ++ l₂) t = (some e, t') := by
  induction l₁ generalizing t with
  | nil =>
    simp [runRecords] at h
  | cons p rest ih =>
    cases hf : f lang p.1 p.2 with
    | some e' =>
      simp only [runRecords, hf] at h
      simp only [List.cons_append, runRecords, hf]
      exact h
    | none =>
      simp only [runRecords, hf] at h
      simp only [List.cons_append, runRecords, hf]
      exact ih h

lemma chunksOfFuel_fuel_irrel (n : Nat) :
    ∀ (f₁ f₂ : Nat) (l : List α), l.length ≤ f₁ → l.length ≤ f₂ →
      chunksOfFuel n f₁ l = chunksOfFuel n f₂ l := by
  intro f₁
  induction f₁ with
  | zero =>
    intro f₂ l h1 _h2
    have hnil : l = [] := List.length_eq_zero.mp (Nat.le_zero.mp h1)
    subst hnil
    cases f₂ <;> rfl
  | succ f ih =>
    intro f₂ l h1 h2
    cases l with
    | nil => cases f₂ <;> rfl
    | cons x xs =>
      cases f₂ with
      | zero => simp at h2
      | succ g =>
        simp only [chunksOfFuel]
        congr 1
        have hd : (xs.drop (n - 1)).length ≤ xs.length := by simp
        apply ih
        · simp only [List.length_cons] at h1; omega
        · simp only [List.length_cons] at h2; omega

lemma chunksOf_nil (n : Nat) : chunksOf n ([] : List α) = [] := rfl

/-- The unfolding equation of `chunksOf` on a non-empty list. -/
lemma chunksOf_cons (n : Nat) (x : α) (xs : List α) :
    chunksOf n (x :: xs) = (x :: xs.take (n - 1)) :: chunksOf n (xs.drop (n - 1)) := by
  unfold chunksOf
  simp only [List.length_cons, chunksOfFuel]
  congr 1
  apply chunksOfFuel_fuel_irrel
  · simp
  · exact le_rfl

lemma chunksOf_eq_nil {n : Nat} {l : List α} : chunksOf n l = [] ↔ l = [] := by
  cases l <;> simp [chunksOf, chunksOfFuel]

lemma runBatches_chunksOf_aux (lang : Language) (f : Language → Int → String → Option Nat)
    (n : Nat) :
    ∀ (k : Nat) (l : List (Int × String)), l.length ≤ k → ∀ t : Table,
      runBatches lang f (chunksOf n l) t = runRecords lang f l t := by
  intro k
  induction k with
  | zero =>
    intro l hl t
    have hnil : l = [] := List.length_eq_zero.mp (Nat.le_zero.mp hl)
    subst hnil
    simp [chunksOf_nil, runBatches, runRecords]
  | succ k ih =>
    intro l hl t
    cases l with
    | nil => simp [chunksOf_nil, runBatches, runRecords]
    | cons x xs =>
      rw [chunksOf_cons]
      simp only [runBatches]
      have hsplit : x :: xs = (x :: xs.take (n - 1)) ++ xs.drop (n - 1) := by
        simp
      rcases hr : runRecords lang f (x :: xs.take (n - 1)) t with ⟨o, t2⟩
      cases o with
      | some e =>
        conv_rhs => rw [hsplit]
        rw [runRecords_some_append hr]
      | none =>
        conv_rhs => rw [hsplit]
        rw [runRecords_none_append hr]
        apply ih
        have hd := List.length_drop (n - 1) xs
        simp only [List.length_cons] at hl
        omega

/-- The batch loop over the chunked snapshot behaves as one sequential pass over
the records, stopping at the first failure. -/
lemma runBatches_chunksOf (lang : Language) (f : Language → Int → String → Option Nat)
    (n : Nat) (l : List (Int × String)) (t : Table) :
    runBatches lang f (chunksOf n l) t = runRecords lang f l t :=
  runBatches_chunksOf_aux lang f n l.length l le_rfl t

lemma chunksOf_flatten_aux (n : Nat) :
    ∀ (k : Nat) (l : List α), l.length ≤ k → (chunksOf n l).flatten = l := by
  intro k
  induction k with
  | zero =>
    intro l hl
    have hnil : l = [] := List.length_eq_zero.mp (Nat.le_zero.mp hl)
    subst hnil
    simp [chunksOf_nil]
  | succ k ih =>
    intro l hl
    cases l with
    | nil => simp [chunksOf_nil]
    | cons x xs =>
      rw [chunksOf_cons, List.flatten_cons]
      rw [ih (xs.drop (n - 1)) (by simp only [List.length_cons] at hl; simp; omega)]
      simp

/-- The batches partition the snapshot's records. -/
lemma chunksOf_flatten (n : Nat) (l : List α) : (chunksOf n l).flatten = l :=
  chunksOf_flatten_aux n l.length l le_rfl

lemma chunksOf_shape_aux (n : Nat) (hn : 1 ≤ n) :
    ∀ (k : Nat) (l : List α), l.length ≤ k →
      ∀ b ∈ chunksOf n l, b ≠ [] ∧ b.length ≤ n := by
  intro k
  induction k with
  | zero =>
    intro l hl b hb
    have hnil : l = [] := List.length_eq_zero.mp (Nat.le_zero.mp hl)
    subst hnil
    simp [chunksOf_nil] at hb
  | succ k ih =>
    intro l hl b hb
    cases l with
    | nil => simp [chunksOf_nil] at hb
    | cons x xs =>
      rw [chunksOf_cons] at hb
      rcases List.mem_cons.mp hb with rfl | hb
      · refine ⟨by simp, ?_⟩
        simp only [List.length_cons, List.length_take]
        omega
      · exact ih (xs.drop (n - 1))
          (by simp only [List.length_cons] at hl; simp; omega) b hb

/-- Every batch is non-empty and holds at most `n` records. -/
lemma chunksOf_shape (n : Nat) (hn : 1 ≤ n) (l : List α) :
    ∀ b ∈ chunksOf n l, b ≠ [] ∧ b.length ≤ n :=
  chunksOf_shape_aux n hn l.length l le_rfl

lemma chunksOf_dropLast_aux (n : Nat) (hn : 1 ≤ n) :
    ∀ (k : Nat) (l : List α), l.length ≤ k →
      ∀ b ∈ (chunksOf n l).dropLast, b.length = n := by
  intro k
  induction k with
  | zero =>
    intro l hl b hb
    have hnil : l = [] := List.length_eq_zero.mp (Nat.le_zero.mp hl)
    subst hnil
    simp [chunksOf_nil] at hb
  | succ k ih =>
    intro l hl b hb
    cases l with
    | nil => simp [chunksOf_nil] at hb
    | cons x xs =>
      rw [chunksOf_cons] at hb
      cases hcs : chunksOf n (xs.drop (n - 1)) with
      | nil => rw [hcs] at hb; simp at hb
      | cons c cs =>
        rw [hcs, List.dropLast_cons₂] at hb
        rcases List.mem_cons.mp hb with rfl | hb
        · have hne : xs.drop (n - 1) ≠ [] := by
            intro hdnil
            rw [hdnil] at hcs
            simp [chunksOf, chunksOfFuel] at hcs
          have hlen : n - 1 ≤ xs.length := by
            by_contra hlt
            push_neg at hlt
            have : xs.drop (n - 1) = [] := List.drop_eq_nil_of_le (le_of_lt hlt)
            exact hne this
          simp only [List.length_cons, List.length_take]
          omega
        · apply ih (xs.drop (n - 1))
            (by simp only [List.length_cons] at hl; simp; omega) b
          rw [hcs]
          exact hb

/-- Every batch except the last holds exactly `n` records. -/
lemma chunksOf_dropLast (n : Nat) (hn : 1 ≤ n) (l : List α) :
    ∀ b ∈ (chunksOf n l).dropLast, b.length = n :=
  chunksOf_dropLast_aux n hn l.length l le_rfl

/-- Claim C1 counterexample: in the table
`[(1,lang 0,"a"), (1,lang 1,"b"), (2,lang 0,"a"), (2,lang 2,"b")]` the two ids'
per-language translation sets partially overlap (both carry `(lang 0, "a")`) and
are not identical (`(lang 2, "b")` belongs only to id 2), yet id 2 does not
survive `delete_duplicated_items`: the signature aggregates translation texts
only (language is just the sort key), so both ids get signature `"a, b"` and the
larger id is deleted. -/
theorem C1_counterexample :
    ((0, "a") ∈ translationPairs
        [⟨1, 0, "a"⟩, ⟨1, 1, "b"⟩, ⟨2, 0, "a"⟩, ⟨2, 2, "b"⟩] 1 ∧
      (0, "a") ∈ translationPairs
        [⟨1, 0, "a"⟩, ⟨1, 1, "b"⟩, ⟨2, 0, "a"⟩, ⟨2, 2, "b"⟩] 2) ∧
    ((2, "b") ∈ translationPairs
        [⟨1, 0, "a"⟩, ⟨1, 1, "b"⟩, ⟨2, 0, "a"⟩, ⟨2, 2, "b"⟩] 2 ∧
      (2, "b") ∉ translationPairs
        [⟨1, 0, "a"⟩, ⟨1, 1, "b"⟩, ⟨2, 0, "a"⟩, ⟨2, 2, "b"⟩] 1) ∧
    ∀ r ∈ delete_duplicated_items
        [⟨1, 0, "a"⟩, ⟨1, 1, "b"⟩, ⟨2, 0, "a"⟩, ⟨2, 2, "b"⟩],
      r.vocabulary_id ≠ 2 := by
  decide

/-- Claim C1 (amended): two rows with partially overlapping but non-identical
per-language translation sets can collide, because the dedup signature
concatenates translation texts only, ordered by language but without recording
the languages, so the same texts under different languages (or texts embedding
the `", "` separator) yield equal signatures.  What holds: whenever the two ids
are the only ids in the table and their signatures differ, both survive
`delete_duplicated_items` with all their rows. -/
theorem C1_amended (t : Table) (a b : Int)
    (ha : a ∈ tableIds t) (hb : b ∈ tableIds t)
    (honly : ∀ c ∈ tableIds t, c = a ∨ c = b)
    (hsig : signature t a ≠ signature t b) :
    rowsOf (delete_duplicated_items t) a = rowsOf t a ∧
      rowsOf (delete_duplicated_items t) b = rowsOf t b := by
  have hka : a ∈ keptIds t := by
    apply mem_keptIds.mpr
    refine ⟨ha, fun j hj hsj => ?_⟩
    rcases honly j hj with rfl | rfl
    · exact le_refl _
    · exact absurd hsj.symm hsig
  have hkb : b ∈ keptIds t := by
    apply mem_keptIds.mpr
    refine ⟨hb, fun j hj hsj => ?_⟩
    rcases honly j hj with rfl | rfl
    · exact absurd hsj hsig
    · exact le_refl _
  exact ⟨rowsOf_dedup_of_kept hka, rowsOf_dedup_of_kept hkb⟩

/-- Witness for `C1_amended` at a concrete two-id table with distinct signatures. -/
theorem C1_amended_witness :
    rowsOf (delete_duplicated_items [⟨1, 0, "x"⟩, ⟨2, 0, "y"⟩]) 1
        = rowsOf [⟨1, 0, "x"⟩, ⟨2, 0, "y"⟩] 1 ∧
      rowsOf (delete_duplicated_items [⟨1, 0, "x"⟩, ⟨2, 0, "y"⟩]) 2
        = rowsOf [⟨1, 0, "x"⟩, ⟨2, 0, "y"⟩] 2 :=
  C1_amended [⟨1, 0, "x"⟩, ⟨2, 0, "y"⟩] 1 2 (by decide) (by decide)
    (by decide) (by decide)

/-- Claim C2 counterexample: in the table
`[(1,lang 0,"x"), (2,lang 0,"x"), (2,lang 1,"y")]` the two ids' translation sets
are identical across every language both have (language 0, text `"x"`), yet both
survive `delete_duplicated_items` — not "exactly one": the dedup key is the full
concatenated signature (`"x"` vs `"x, y"`), so agreement on the shared languages
alone does not make the rows duplicates. -/
theorem C2_counterexample :
    (∀ p ∈ translationPairs [⟨1, 0, "x"⟩, ⟨2, 0, "x"⟩, ⟨2, 1, "y"⟩] 1,
      ∀ q ∈ translationPairs [⟨1, 0, "x"⟩, ⟨2, 0, "x"⟩, ⟨2, 1, "y"⟩] 2,
        p.1 = q.1 → p.2 = q.2) ∧
    (∃ r ∈ delete_duplicated_items [⟨1, 0, "x"⟩, ⟨2, 0, "x"⟩, ⟨2, 1, "y"⟩],
      r.vocabulary_id = 1) ∧
    (∃ r ∈ delete_duplicated_items [⟨1, 0, "x"⟩, ⟨2, 0, "x"⟩, ⟨2, 1, "y"⟩],
      r.vocabulary_id = 2) := by
  decide

/-- Claim C2 (amended): agreement on the shared languages only is not enough —
the dedup key is the full signature.  For two ids whose per-language translation
sets are identical as full sets (same languages with the same texts, languages
unrepeated per id, which is the pre-reconciliation invariant), the larger id
never survives `delete_duplicated_items`, and the smaller survives exactly when
it is minimal among the table's ids sharing that signature — in particular,
exactly the smaller of the two survives when no third id shares the signature. -/
theorem C2_amended (t : Table) (a b : Int)
    (hab : a < b) (ha : a ∈ tableIds t) (_hb : b ∈ tableIds t)
    (hnda : ((translationPairs t a).map Prod.fst).Nodup)
    (hndb : ((translationPairs t b).map Prod.fst).Nodup)
    (hsub1 : ∀ p ∈ translationPairs t a, p ∈ translationPairs t b)
    (hsub2 : ∀ p ∈ translationPairs t b, p ∈ translationPairs t a) :
    (∀ r ∈ delete_duplicated_items t, r.vocabulary_id ≠ b) ∧
      ((∃ r ∈ delete_duplicated_items t, r.vocabulary_id = a) ↔
        ∀ c ∈ tableIds t, signature t c = signature t a → a ≤ c) := by
  have hperm : List.Perm (translationPairs t a) (translationPairs t b) := by
    apply (List.perm_ext_iff_of_nodup ?_ ?_).mpr
      (fun p => ⟨fun h => hsub1 p h, fun h => hsub2 p h⟩)
    · exact hnda.of_map Prod.fst
    · exact hndb.of_map Prod.fst
  have hsig : signature t a = signature t b := by
    rw [signature_eq_pairs, signature_eq_pairs,
      sortPairsByLang_eq_of_perm hperm hnda]
  have hbk : b ∉ keptIds t := by
    intro hk
    have := (mem_keptIds.mp hk).2 a ha hsig
    omega
  constructor
  · intro r hr hrb
    have : r ∈ rowsOf (delete_duplicated_items t) b :=
      mem_rowsOf.mpr ⟨hr, hrb⟩
    rw [rowsOf_dedup_of_not_kept hbk] at this
    simp at this
  · constructor
    · rintro ⟨r, hr, hra⟩
      by_contra hmin
      push_neg at hmin
      have hak : a ∉ keptIds t := by
        intro hk
        obtain ⟨c, hc, hsc, hlt⟩ := hmin
        exact absurd ((mem_keptIds.mp hk).2 c hc hsc) (by omega)
      have : r ∈ rowsOf (delete_duplicated_items t) a :=
        mem_rowsOf.mpr ⟨hr, hra⟩
      rw [rowsOf_dedup_of_not_kept hak] at this
      simp at this
    · intro hmin
      have hak : a ∈ keptIds t := mem_keptIds.mpr ⟨ha, hmin⟩
      obtain ⟨r, hrt, hra⟩ := mem_tableIds.mp ha
      refine ⟨r, ?_, hra⟩
      have : r ∈ rowsOf (delete_duplicated_items t) a := by
        rw [rowsOf_dedup_of_kept hak]
        exact mem_rowsOf.mpr ⟨hrt, hra⟩
      exact (mem_rowsOf.mp this).1

/-- Witness for `C2_amended` at a concrete table where ids 1 and 2 carry the
identical translation set: id 2 is deleted, id 1 survives. -/
theorem C2_amended_witness :
    (∀ r ∈ delete_duplicated_items [⟨1, 0, "x"⟩, ⟨2, 0, "x"⟩],
        r.vocabulary_id ≠ 2) ∧
      ((∃ r ∈ delete_duplicated_items [⟨1, 0, "x"⟩, ⟨2, 0, "x"⟩],
          r.vocabulary_id = 1) ↔
        ∀ c ∈ tableIds [⟨1, 0, "x"⟩, ⟨2, 0, "x"⟩],
          signature [⟨1, 0, "x"⟩, ⟨2, 0, "x"⟩] c
              = signature [⟨1, 0, "x"⟩, ⟨2, 0, "x"⟩] 1 → 1 ≤ c) :=
  C2_amended [⟨1, 0, "x"⟩, ⟨2, 0, "x"⟩] 1 2 (by decide) (by decide) (by decide)
    (by decide) (by decide) (by decide) (by decide)

/-- Claim C5: starting from the empty table, after inserting rows
`(1, chs, "Hello World")` and `(2, chs, "Hello World")`, `delete_duplicated_items`
leaves exactly one row, which has `vocabulary_id = 1`. -/
theorem C5_scenarioA :
    delete_duplicated_items
      [⟨1, Language.chs, "Hello World"⟩, ⟨2, Language.chs, "Hello World"⟩]
      = [⟨1, Language.chs, "Hello World"⟩] := by
  decide

/-- Claim C6: for every language and snapshot with no failing insert, starting
from a table with no rows of that language, `insert_items` reports the
snapshot's record count `N` and afterwards the table holds exactly `N` rows for
that language, one per `(id, translation)` pair of the snapshot. -/
theorem C6_write_completeness (lang : Language) (map : List (Int × String))
    (f : Language → Int → String → Option Nat) (t : Table)
    (hok : ∀ p ∈ map, f lang p.1 p.2 = none)
    (hemp : t.filter (fun r => decide (r.language = lang)) = []) :
    (insert_items lang map f t).1 = Except.ok map.length ∧
      ((insert_items lang map f t).2).filter (fun r => decide (r.language = lang))
          = map.map (mkRow lang) ∧
      (((insert_items lang map f t).2).filter
          (fun r => decide (r.language = lang))).length = map.length := by
  have hrun : runBatches lang f (chunksOf 50 map) t
      = (none, t ++ map.map (mkRow lang)) := by
    rw [runBatches_chunksOf]
    exact runRecords_ok hok t
  have hfil : (t ++ map.map (mkRow lang)).filter
      (fun r => decide (r.language = lang)) = map.map (mkRow lang) := by
    rw [List.filter_append, hemp, List.nil_append]
    apply List.filter_eq_self.mpr
    intro r hr
    obtain ⟨p, _hp, rfl⟩ := List.mem_map.mp hr
    simp [mkRow]
  refine ⟨?_, ?_, ?_⟩
  · simp only [insert_items, hrun]
  · simp only [insert_items, hrun]
    exact hfil
  · simp only [insert_items, hrun]
    rw [hfil, List.length_map]

/-- Witness for `C6_write_completeness` on a two-record snapshot with no
failures, starting from the empty table. -/
theorem C6_write_completeness_witness :
    (insert_items 0 [(1, "a"), (2, "b")] (fun _ _ _ => none) []).1
        = Except.ok ([(1, "a"), ((2 : Int), "b")] : List (Int × String)).length ∧
      ((insert_items 0 [(1, "a"), (2, "b")] (fun _ _ _ => none) []).2).filter
          (fun r => decide (r.language = 0))
          = ([(1, "a"), (2, "b")] : List (Int × String)).map (mkRow 0) ∧
      (((insert_items 0 [(1, "a"), (2, "b")] (fun _ _ _ => none) []).2).filter
          (fun r => decide (r.language = 0))).length
          = ([(1, "a"), ((2 : Int), "b")] : List (Int × String)).length :=
  C6_write_completeness 0 [(1, "a"), (2, "b")] (fun _ _ _ => none) []
    (by decide) (by decide)

/-- Claim C7: `insert_items` partitions its records into batches of 50 (every
batch non-empty with at most 50 records, every batch but the last with exactly
50, and the batches concatenating back to the input); batches run strictly
sequentially, and when the record after `pre` is the first to fail, the call
returns that first error and the final table holds exactly the rows of `pre` —
nothing from any later record or batch. -/
theorem C7_batching_fail_fast (lang : Language)
    (f : Language → Int → String → Option Nat) (t : Table)
    (map pre post : List (Int × String)) (p0 : Int × String) (e : Nat)
    (hsplit : map = pre ++ p0 :: post)
    (hpre : ∀ p ∈ pre, f lang p.1 p.2 = none)
    (hfail : f lang p0.1 p0.2 = some e) :
    (insert_items lang map f t).1 = Except.error e ∧
      (insert_items lang map f t).2 = t ++ pre.map (mkRow lang) ∧
      (chunksOf 50 map).flatten = map ∧
      (∀ b ∈ chunksOf 50 map, b ≠ [] ∧ b.length ≤ 50) ∧
      (∀ b ∈ (chunksOf 50 map).dropLast, b.length = 50) := by
  have hrun : runBatches lang f (chunksOf 50 map) t
      = (some e, t ++ pre.map (mkRow lang)) := by
    rw [runBatches_chunksOf, hsplit]
    exact runRecords_fail hpre hfail t
  refine ⟨?_, ?_, chunksOf_flatten 50 map,
    chunksOf_shape 50 (by omega) map, chunksOf_dropLast 50 (by omega) map⟩
  · simp only [insert_items, hrun]
  · simp only [insert_items, hrun]

/-- Witness for `C7_batching_fail_fast`: the second record fails, the first
lands, the third is never attempted. -/
theorem C7_batching_fail_fast_witness :
    (insert_items 0 [(1, "a"), (2, "b"), (3, "c")]
        (fun _ i _ => if i = 2 then some 7 else none) []).1 = Except.error 7 ∧
      (insert_items 0 [(1, "a"), (2, "b"), (3, "c")]
          (fun _ i _ => if i = 2 then some 7 else none) []).2
        = [] ++ ([((1 : Int), "a")] : List (Int × String)).map (mkRow 0) ∧
      (chunksOf 50 ([(1, "a"), (2, "b"), (3, "c")] : List (Int × String))).flatten
        = [(1, "a"), (2, "b"), (3, "c")] ∧
      (∀ b ∈ chunksOf 50 ([(1, "a"), (2, "b"), (3, "c")] : List (Int × String)),
        b ≠ [] ∧ b.length ≤ 50) ∧
      (∀ b ∈ (chunksOf 50
          ([(1, "a"), (2, "b"), (3, "c")] : List (Int × String))).dropLast,
        b.length = 50) :=
  C7_batching_fail_fast 0 (fun _ i _ => if i = 2 then some 7 else none) []
    [(1, "a"), (2, "b"), (3, "c")] [(1, "a")] [(3, "c")] (2, "b") 7
    (by decide) (by decide) (by decide)

/-- An oracle bundle under which every operation succeeds and every snapshot is
empty. -/
def oAllOk : Oracles :=
  ⟨none, fun _ => Except.ok [], fun _ _ _ => none, none⟩

/-- Fetch of language 0 fails with cause 7, everything else succeeds. -/
def oFailLang0 : Oracles :=
  ⟨none, fun l => if l = 0 then Except.error 7 else Except.ok [],
    fun _ _ _ => none, none⟩

/-- Fetch of language 1 fails with cause 7, everything else succeeds. -/
def oFailLang1 : Oracles :=
  ⟨none, fun l => if l = 1 then Except.error 7 else Except.ok [],
    fun _ _ _ => none, none⟩

lemma processLangs_cons_fetch_err {o : Oracles} {l : Language} {ls : List Language}
    {t : Table} {e : Nat} (hf : o.fetchResult l = Except.error e) :
    processLangs o (l :: ls) t
      = (Except.error (CrudError.updateData e), t, [Phase.fetch l]) := by
  simp only [processLangs, hf]

lemma processLangs_cons_ins_err {o : Oracles} {l : Language} {ls : List Language}
    {t t2 : Table} {map : List (Int × String)} {e : Nat}
    (hf : o.fetchResult l = Except.ok map)
    (hi : insert_items l map o.insertFail t = (Except.error e, t2)) :
    processLangs o (l :: ls) t
      = (Except.error (CrudError.db e), t2, [Phase.fetch l, Phase.write l]) := by
  simp only [processLangs, hf, hi]

lemma processLangs_cons_ok {o : Oracles} {l : Language} {ls : List Language}
    {t t2 : Table} {map : List (Int × String)} {k : Nat}
    (hf : o.fetchResult l = Except.ok map)
    (hi : insert_items l map o.insertFail t = (Except.ok k, t2)) :
    processLangs o (l :: ls) t
      = ((processLangs o ls t2).1, (processLangs o ls t2).2.1,
          Phase.fetch l :: Phase.write l :: (processLangs o ls t2).2.2) := by
  simp only [processLangs, hf, hi]

lemma processLangs_reconcile_not_mem (o : Oracles) :
    ∀ (ls : List Language) (t : Table),
      Phase.reconcile ∉ (processLangs o ls t).2.2 := by
  intro ls
  induction ls with
  | nil => intro t; simp [processLangs]
  | cons l ls ih =>
    intro t
    cases hf : o.fetchResult l with
    | error e => rw [processLangs_cons_fetch_err hf]; simp
    | ok map =>
      rcases hi : insert_items l map o.insertFail t with ⟨res, t2⟩
      cases res with
      | error e => rw [processLangs_cons_ins_err hf hi]; simp
      | ok k =>
        rw [processLangs_cons_ok hf hi]
        simpa using ih t2

lemma processLangs_ok_trace (o : Oracles) :
    ∀ (ls : List Language) (t : Table),
      (processLangs o ls t).1 = Except.ok () →
        (processLangs o ls t).2.2
          = ls.flatMap (fun l => [Phase.fetch l, Phase.write l]) := by
  intro ls
  induction ls with
  | nil => intro t _; simp [processLangs]
  | cons l ls ih =>
    intro t hok
    cases hf : o.fetchResult l with
    | error e => rw [processLangs_cons_fetch_err hf] at hok; simp at hok
    | ok map =>
      rcases hi : insert_items l map o.insertFail t with ⟨res, t2⟩
      cases res with
      | error e => rw [processLangs_cons_ins_err hf hi] at hok; simp at hok
      | ok k =>
        rw [processLangs_cons_ok hf hi] at hok ⊢
        simp only [List.flatMap_cons]
        rw [ih t2 hok]
        rfl

lemma processLangs_write_mem (o : Oracles) :
    ∀ (ls : List Language) (t : Table) (l : Language),
      Phase.write l ∈ (processLangs o ls t).2.2 →
        ∃ m, o.fetchResult l = Except.ok m := by
  intro ls
  induction ls with
  | nil => intro t l h; simp [processLangs] at h
  | cons l0 ls ih =>
    intro t l h
    cases hf : o.fetchResult l0 with
    | error e =>
      rw [processLangs_cons_fetch_err hf] at h
      simp at h
    | ok map =>
      rcases hi : insert_items l0 map o.insertFail t with ⟨res, t2⟩
      cases res with
      | error e =>
        rw [processLangs_cons_ins_err hf hi] at h
        simp at h
        exact ⟨map, h ▸ hf⟩
      | ok k =>
        rw [processLangs_cons_ok hf hi] at h
        simp at h
        rcases h with h | h
        · exact ⟨map, h ▸ hf⟩
        · exact ih t2 l h

lemma processLangs_ok_fetch (o : Oracles) :
    ∀ (ls : List Language) (t : Table),
      (processLangs o ls t).1 = Except.ok () →
        ∀ l ∈ ls, ∃ m, o.fetchResult l = Except.ok m := by
  intro ls
  induction ls with
  | nil => intro t _ l hl; simp at hl
  | cons l0 ls ih =>
    intro t hok l hl
    cases hf : o.fetchResult l0 with
    | error e => rw [processLangs_cons_fetch_err hf] at hok; simp at hok
    | ok map =>
      rcases hi : insert_items l0 map o.insertFail t with ⟨res, t2⟩
      cases res with
      | error e => rw [processLangs_cons_ins_err hf hi] at hok; simp at hok
      | ok k =>
        rw [processLangs_cons_ok hf hi] at hok
        rcases List.mem_cons.mp hl with rfl | hl
        · exact ⟨map, hf⟩
        · exact ih t2 hok l hl

lemma visitedLanguages_flatMap (ls : List Language) :
    visitedLanguages (ls.flatMap (fun l => [Phase.fetch l, Phase.write l])) = ls := by
  induction ls with
  | nil => rfl
  | cons l ls ih => simp [visitedLanguages] at ih ⊢; exact ih

lemma update_dictionary_truncate_err {o : Oracles} {iterOrder : List Language}
    {t : Table} {e : Nat} (htr : o.truncateErr = some e) :
    update_dictionary o iterOrder t = (Except.error (CrudError.db e), t, [Phase.reset]) := by
  simp only [update_dictionary, htr]

lemma update_dictionary_langs_err {o : Oracles} {iterOrder : List Language}
    {t : Table} {e : CrudError} (htr : o.truncateErr = none)
    (hp : (processLangs o iterOrder []).1 = Except.error e) :
    update_dictionary o iterOrder t
      = (Except.error e, (processLangs o iterOrder []).2.1,
          Phase.reset :: (processLangs o iterOrder []).2.2) := by
  simp only [update_dictionary, htr, hp]

lemma update_dictionary_dedup_err {o : Oracles} {iterOrder : List Language}
    {t : Table} {u : Unit} {e : Nat} (htr : o.truncateErr = none)
    (hp : (processLangs o iterOrder []).1 = Except.ok u) (hd : o.dedupErr = some e) :
    update_dictionary o iterOrder t
      = (Except.error (CrudError.db e), (processLangs o iterOrder []).2.1,
          Phase.reset :: (processLangs o iterOrder []).2.2 ++ [Phase.reconcile]) := by
  simp only [update_dictionary, htr, hp, hd]

lemma update_dictionary_all_ok {o : Oracles} {iterOrder : List Language}
    {t : Table} {u : Unit} (htr : o.truncateErr = none)
    (hp : (processLangs o iterOrder []).1 = Except.ok u) (hd : o.dedupErr = none) :
    update_dictionary o iterOrder t
      = (Except.ok (), delete_duplicated_items (processLangs o iterOrder []).2.1,
          Phase.reset :: (processLangs o iterOrder []).2.2 ++ [Phase.reconcile]) := by
  simp only [update_dictionary, htr, hp, hd]

/-- On a successful run, decompose `update_dictionary` into its parts: the
truncate succeeded, every language loaded, the reconcile `DELETE` succeeded,
the final table is the reconciled loaded table, and the trace is
reset, fetch/write per language, reconcile. -/
lemma update_dictionary_ok_parts {o : Oracles} {iterOrder : List Language} {t : Table}
    (hok : (update_dictionary o iterOrder t).1 = Except.ok ()) :
    o.truncateErr = none ∧
      (processLangs o iterOrder []).1 = Except.ok () ∧
      o.dedupErr = none ∧
      (update_dictionary o iterOrder t).2.1
        = delete_duplicated_items (processLangs o iterOrder []).2.1 ∧
      (update_dictionary o iterOrder t).2.2
        = Phase.reset :: (processLangs o iterOrder []).2.2 ++ [Phase.reconcile] := by
  cases htr : o.truncateErr with
  | some e => rw [update_dictionary_truncate_err htr] at hok; simp at hok
  | none =>
    cases hp : (processLangs o iterOrder []).1 with
    | error e => rw [update_dictionary_langs_err htr hp] at hok; simp at hok
    | ok u =>
      cases u
      cases hd : o.dedupErr with
      | some e => rw [update_dictionary_dedup_err htr hp hd] at hok; simp at hok
      | none =>
        rw [update_dictionary_all_ok htr hp hd]
        exact ⟨rfl, rfl, rfl, rfl, rfl⟩

/-- The run (result, final table, trace) does not depend on the initial table
once the truncate succeeds: the table is rebuilt from empty. -/
lemma update_dictionary_table_indep {o : Oracles} {iterOrder : List Language}
    (htr : o.truncateErr = none) (t₁ t₂ : Table) :
    update_dictionary o iterOrder t₁ = update_dictionary o iterOrder t₂ := by
  simp only [update_dictionary, htr]

/-- Claim C3 counterexample: the catalog `LANGUAGE_URL_MAPPING` is a
`std::collections::HashMap`, whose iteration order is an unspecified permutation
of the key set; under the admissible iteration order `[1, 0]` a fully successful
run visits the languages in the order `[1, 0]`, not the catalog's definition
order `[0, 1]`. -/
theorem C3_counterexample :
    List.Perm ([1, 0] : List Language) (catalog 2) ∧
      (update_dictionary oAllOk [1, 0] []).1 = Except.ok () ∧
      visitedLanguages (update_dictionary oAllOk [1, 0] []).2.2 ≠ catalog 2 := by
  decide

/-- Claim C3 (amended): the refresh processes languages strictly sequentially
and, on a successful run, visits each catalog language exactly once — the visit
sequence is exactly the `HashMap`'s iteration order, a permutation of the
catalog, but not necessarily the catalog's definition order. -/
theorem C3_amended (n : Nat) (o : Oracles) (iterOrder : List Language) (t : Table)
    (hperm : List.Perm iterOrder (catalog n))
    (hok : (update_dictionary o iterOrder t).1 = Except.ok ()) :
    visitedLanguages (update_dictionary o iterOrder t).2.2 = iterOrder ∧
      List.Perm (visitedLanguages (update_dictionary o iterOrder t).2.2)
        (catalog n) := by
  obtain ⟨_htr, hp, _hd, _htab, htrace⟩ := update_dictionary_ok_parts hok
  have hv : visitedLanguages (update_dictionary o iterOrder t).2.2 = iterOrder := by
    rw [htrace, processLangs_ok_trace o iterOrder [] hp]
    have hflat := visitedLanguages_flatMap iterOrder
    simp only [visitedLanguages, List.filterMap_cons, List.filterMap_append] at hflat ⊢
    simpa using hflat
  refine ⟨hv, ?_⟩
  rw [hv]
  exact hperm

/-- Witness for `C3_amended` at the definition-order iteration of a two-language
catalog. -/
theorem C3_amended_witness :
    visitedLanguages (update_dictionary oAllOk [0, 1] []).2.2 = [0, 1] ∧
      List.Perm (visitedLanguages (update_dictionary oAllOk [0, 1] []).2.2)
        (catalog 2) :=
  C3_amended 2 oAllOk [0, 1] [] (by decide) (by decide)

/-- Claim C4 counterexample: the error value carries no language.  A fetch
failure with cause 7 at language 0 and a fetch failure with the same cause at
language 1 yield the same error value `CrudError::UpdateData(7)` from
`update_dictionary`, so the returned error cannot identify which language
failed — only logs do. -/
theorem C4_counterexample :
    oFailLang0.fetchResult 0 = Except.error 7 ∧
      oFailLang0.fetchResult 1 = Except.ok [] ∧
      oFailLang1.fetchResult 0 = Except.ok [] ∧
      oFailLang1.fetchResult 1 = Except.error 7 ∧
      (update_dictionary oFailLang0 [0, 1] []).1
        = (update_dictionary oFailLang1 [0, 1] []).1 := by
  decide

/-- Claim C4 (amended): a failed refresh surfaces the underlying cause, and a
fetch/decode failure is distinguished from database failures by the
`CrudError::UpdateData` constructor, but the error value does not identify the
failing language (the call sites wrap only the cause).  In particular a fetch
failure for the second language in iteration order, the first language having
loaded, aborts with `UpdateData(cause)` and no write phase ever runs for the
failed language. -/
theorem C4_amended (o : Oracles) (t : Table) (l₁ l₂ : Language)
    (rest : List Language) (m : List (Int × String)) (c : Nat)
    (htr : o.truncateErr = none)
    (hf1 : o.fetchResult l₁ = Except.ok m)
    (hins : ∀ p ∈ m, o.insertFail l₁ p.1 p.2 = none)
    (hf2 : o.fetchResult l₂ = Except.error c)
    (hne : l₁ ≠ l₂) :
    (update_dictionary o (l₁ :: l₂ :: rest) t).1
        = Except.error (CrudError.updateData c) ∧
      Phase.write l₂ ∉ (update_dictionary o (l₁ :: l₂ :: rest) t).2.2 := by
  have hi : insert_items l₁ m o.insertFail []
      = (Except.ok m.length, [] ++ m.map (mkRow l₁)) := by
    unfold insert_items
    rw [runBatches_chunksOf, runRecords_ok hins]
  have hp : processLangs o (l₁ :: l₂ :: rest) []
      = ((processLangs o (l₂ :: rest) ([] ++ m.map (mkRow l₁))).1,
          (processLangs o (l₂ :: rest) ([] ++ m.map (mkRow l₁))).2.1,
          Phase.fetch l₁ :: Phase.write l₁ ::
            (processLangs o (l₂ :: rest) ([] ++ m.map (mkRow l₁))).2.2) :=
    processLangs_cons_ok hf1 hi
  have hp2 : processLangs o (l₂ :: rest) ([] ++ m.map (mkRow l₁))
      = (Except.error (CrudError.updateData c), [] ++ m.map (mkRow l₁),
          [Phase.fetch l₂]) :=
    processLangs_cons_fetch_err hf2
  have hperr : (processLangs o (l₁ :: l₂ :: rest) []).1
      = Except.error (CrudError.updateData c) := by
    rw [hp, hp2]
  have hupd := @update_dictionary_langs_err o (l₁ :: l₂ :: rest) t
    (CrudError.updateData c) htr hperr
  have htrace : (update_dictionary o (l₁ :: l₂ :: rest) t).2.2
      = [Phase.reset, Phase.fetch l₁, Phase.write l₁, Phase.fetch l₂] := by
    rw [hupd]
    rw [hp, hp2]
  constructor
  · rw [hupd]
  · rw [htrace]
    intro hmem
    simp at hmem
    exact hne hmem.symm

/-- Witness for `C4_amended`: the second language's fetch fails with cause 7
after the first language loaded an empty snapshot. -/
theorem C4_amended_witness :
    (update_dictionary oFailLang1 [0, 1] []).1
        = Except.error (CrudError.updateData 7) ∧
      Phase.write 1 ∉ (update_dictionary oFailLang1 [0, 1] []).2.2 :=
  C4_amended oFailLang1 [] 0 1 [] [] 7 (by decide) (by decide) (by decide)
    (by decide) (by decide)

/-- Claim C8: every run's trace starts with the table reset; reconciliation is
attempted at most once, and whenever it is attempted the trace is exactly the
reset followed by fetch-then-write for every language in iteration order
followed by the reconcile — so it runs only after every language's fetch and
write succeeded; and a language whose fetch fails gets no write phase and the
run never reaches reconciliation. -/
theorem C8_phase_order (o : Oracles) (iterOrder : List Language) (t : Table) :
    ((update_dictionary o iterOrder t).2.2).head? = some Phase.reset ∧
      ((update_dictionary o iterOrder t).2.2).count Phase.reconcile ≤ 1 ∧
      (Phase.reconcile ∈ (update_dictionary o iterOrder t).2.2 →
        (update_dictionary o iterOrder t).2.2
          = Phase.reset ::
              iterOrder.flatMap (fun l => [Phase.fetch l, Phase.write l])
                ++ [Phase.reconcile]) ∧
      (∀ l ∈ iterOrder, ∀ e : Nat, o.fetchResult l = Except.error e →
        Phase.write l ∉ (update_dictionary o iterOrder t).2.2 ∧
          Phase.reconcile ∉ (update_dictionary o iterOrder t).2.2) := by
  cases htr : o.truncateErr with
  | some e0 =>
    rw [update_dictionary_truncate_err htr]
    refine ⟨rfl, by simp, by simp, ?_⟩
    intro l _ e _
    simp
  | none =>
    cases hp : (processLangs o iterOrder []).1 with
    | error e0 =>
      rw [update_dictionary_langs_err htr hp]
      have hnr := processLangs_reconcile_not_mem o iterOrder []
      refine ⟨rfl, ?_, ?_, ?_⟩
      · simp [List.count_cons]
        simp [List.count_eq_zero.mpr hnr]
      · intro hmem
        simp at hmem
        exact absurd hmem hnr
      · intro l _ e hf
        constructor
        · intro hmem
          simp at hmem
          obtain ⟨m, hm⟩ := processLangs_write_mem o iterOrder [] l hmem
          rw [hf] at hm
          exact absurd hm (by simp)
        · intro hmem
          simp at hmem
          exact absurd hmem hnr
    | ok u =>
      cases u
      have htrP := processLangs_ok_trace o iterOrder [] hp
      have hnr := processLangs_reconcile_not_mem o iterOrder []
      have hfetch := processLangs_ok_fetch o iterOrder [] hp
      have hshape : ∀ tr : List Phase,
          tr = Phase.reset :: (processLangs o iterOrder []).2.2 ++ [Phase.reconcile] →
          tr.head? = some Phase.reset ∧
            tr.count Phase.reconcile ≤ 1 ∧
            (Phase.reconcile ∈ tr →
              tr = Phase.reset ::
                iterOrder.flatMap (fun l => [Phase.fetch l, Phase.write l])
                  ++ [Phase.reconcile]) ∧
            (∀ l ∈ iterOrder, ∀ e : Nat, o.fetchResult l = Except.error e →
              Phase.write l ∉ tr ∧ Phase.reconcile ∉ tr) := by
        intro tr htr2
        subst htr2
        refine ⟨rfl, ?_, ?_, ?_⟩
        · simp [List.count_cons, List.count_append]
          exact List.count_eq_zero.mpr hnr
        · intro _
          rw [htrP]
        · intro l hl e hf
          obtain ⟨m, hm⟩ := hfetch l hl
          rw [hf] at hm
          exact absurd hm (by simp)
      cases hd : o.dedupErr with
      | some e0 =>
        rw [update_dictionary_dedup_err htr hp hd]
        exact hshape _ rfl
      | none =>
        rw [update_dictionary_all_ok htr hp hd]
        exact hshape _ rfl

/-- Witness for `C8_phase_order`: the full successful one-language run has the
trace reset, fetch, write, reconcile. -/
theorem C8_phase_order_witness :
    (update_dictionary oAllOk [0] []).2.2
      = Phase.reset ::
          ([0] : List Language).flatMap (fun l => [Phase.fetch l, Phase.write l])
            ++ [Phase.reconcile] :=
  (C8_phase_order oAllOk [0] []).2.2.1 (by decide)

/-- Claim C9: with the oracles (remote snapshots and failure behaviour) fixed,
a second run of `update_dictionary` after a successful one succeeds as well and
leaves exactly the same final table: the run truncates first, so its outcome is
independent of the table it starts from. -/
theorem C9_idempotent (o : Oracles) (iterOrder : List Language) (t : Table)
    (hok : (update_dictionary o iterOrder t).1 = Except.ok ()) :
    (update_dictionary o iterOrder ((update_dictionary o iterOrder t).2.1)).1
        = Except.ok () ∧
      (update_dictionary o iterOrder ((update_dictionary o iterOrder t).2.1)).2.1
        = (update_dictionary o iterOrder t).2.1 := by
  obtain ⟨htr, _, _, _, _⟩ := update_dictionary_ok_parts hok
  have heq := @update_dictionary_table_indep o iterOrder htr
    ((update_dictionary o iterOrder t).2.1) t
  rw [heq]
  exact ⟨hok, rfl⟩

/-- Witness for `C9_idempotent` on a successful one-language run. -/
theorem C9_idempotent_witness :
    (update_dictionary oAllOk [0] ((update_dictionary oAllOk [0] []).2.1)).1
        = Except.ok () ∧
      (update_dictionary oAllOk [0] ((update_dictionary oAllOk [0] []).2.1)).2.1
        = (update_dictionary oAllOk [0] []).2.1 :=
  C9_idempotent oAllOk [0] [] (by decide)

end GenshinDict
